import Mathlib

/-!
Verification of scripts/bib_to_cv_publications.py: a lightweight BibTeX
scanner and normalizer that injects publication records into a CV data file.
The Python source is shallowly embedded below: strings are `List Char`
(Lean 4.14 strings are wrappers around `List Char`), index-based scanning
loops become structural recursion on the remaining suffix, and loops whose
progress is not structural take an explicit fuel argument that is always
instantiated large enough (each iteration consumes at least one character).
Python `str.lower` is modelled on the character ranges that can occur here
(ASCII plus the Cyrillic letters used by the owner-name configuration).
-/

namespace BibCV

/-- The four whitespace characters the scanner skips explicitly (" \t\n\r"). -/
def isBibWs (c : Char) : Bool :=
  (c == ' ') || (c == '\t') || (c == '\n') || (c == '\r')

/-- Python regex \s (ASCII): space, \t, \n, \r, \x0b, \x0c.  Also the set
stripped by str.strip() for the inputs modelled here. -/
def isPyWs (c : Char) : Bool :=
  (c == ' ') || (c == '\t') || (c == '\n') || (c == '\r') ||
  (c == '\x0b') || (c == '\x0c')

/-- Python regex \w (ASCII): letters, digits, underscore. -/
def isWordChar (c : Char) : Bool := c.isAlphanum || c == '_'

/-- Trailing characters skipped after an extracted value (" \t\n\r,"). -/
def isTrail (c : Char) : Bool := isBibWs c || c == ','

def lbrace : Char := '\x7b'
def rbrace : Char := '\x7d'
def dquote : Char := '\x22'
def bslash : Char := '\x5c'

/-- Association-list lookup, modelling Python dict lookup (first match in
the given order). -/
def assocFind {α β : Type} [DecidableEq α] : List (α × β) → α → Option β
  | [], _ => none
  | (k, v) :: rest, c => if c = k then some v else assocFind rest c

/-- Uppercase-to-lowercase table modelling Python str.lower on the
characters relevant to this program: ASCII letters and Cyrillic
(the owner-name configuration contains a Cyrillic surname). -/
def lowerPairs : List (Char × Char) :=
  [('A','a'),('B','b'),('C','c'),('D','d'),('E','e'),('F','f'),('G','g'),
   ('H','h'),('I','i'),('J','j'),('K','k'),('L','l'),('M','m'),('N','n'),
   ('O','o'),('P','p'),('Q','q'),('R','r'),('S','s'),('T','t'),('U','u'),
   ('V','v'),('W','w'),('X','x'),('Y','y'),('Z','z'),
   ('Ё','ё'),('А','а'),('Б','б'),('В','в'),('Г','г'),('Д','д'),('Е','е'),
   ('Ж','ж'),('З','з'),('И','и'),('Й','й'),('К','к'),('Л','л'),('М','м'),
   ('Н','н'),('О','о'),('П','п'),('Р','р'),('С','с'),('Т','т'),('У','у'),
   ('Ф','ф'),('Х','х'),('Ц','ц'),('Ч','ч'),('Ш','ш'),('Щ','щ'),('Ъ','ъ'),
   ('Ы','ы'),('Ь','ь'),('Э','э'),('Ю','ю'),('Я','я')]

/-- Python str.lower, per character (identity outside the table). -/
def pyLowerChar (c : Char) : Char :=
  match assocFind lowerPairs c with
  | some l => l
  | none => c

/-- Python str.lower on a character list. -/
def pyLower (l : List Char) : List Char := l.map pyLowerChar

/-- Python str.strip(): drop whitespace from both ends. -/
def pyStrip (l : List Char) : List Char :=
  ((l.dropWhile isPyWs).reverse.dropWhile isPyWs).reverse

/-- The brace-balancing loop shared by the entry scanner (lines 113-122 of
the source) and the brace branch of _extract_value (lines 158-168): scan
counting depth, stop right after the brace that returns the depth to zero.
The characters before that closing brace are the value; on exhaustion the
Python slice text[start : i-1] drops the final character. -/
def braceLoop : List Char → Nat → List Char → List Char × List Char
  | [], _, acc => (acc.reverse.dropLast, [])
  | c :: rest, depth, acc =>
    if c = lbrace then braceLoop rest (depth + 1) (c :: acc)
    else if c = rbrace then
      if depth = 1 then (acc.reverse, rest)
      else braceLoop rest (depth - 1) (c :: acc)
    else braceLoop rest depth (c :: acc)

/-- The quoted-value loop of _extract_value (lines 174-185): consume until
an unescaped double quote; a backslash escapes the following character
(both characters stay in the value). -/
def quoteLoop : List Char → List Char × List Char
  | [] => ([], [])
  | [c] => if c = dquote then ([], []) else ([c], [])
  | c :: d :: rest =>
    if c = dquote then ([], d :: rest)
    else if c = bslash then
      let vr := quoteLoop rest
      (c :: d :: vr.1, vr.2)
    else
      let vr := quoteLoop (d :: rest)
      (c :: vr.1, vr.2)

/-- _extract_value (lines 144-194): skip whitespace, then dispatch on
brace-delimited, quoted, or bare value; skip trailing whitespace/commas.
Returns (value, remaining input after the value). -/
def _extract_value (l : List Char) : List Char × List Char :=
  let l1 := l.dropWhile isBibWs
  match l1 with
  | [] => ([], [])
  | c :: rest =>
    if c = lbrace then
      let vr := braceLoop rest 1 []
      (vr.1, vr.2.dropWhile isTrail)
    else if c = dquote then
      let vr := quoteLoop rest
      (vr.1, vr.2.dropWhile isTrail)
    else
      let v := l1.takeWhile (fun c => !(isBibWs c || c == ',' || c == rbrace))
      (v, (l1.drop v.length).dropWhile isTrail)

/-- Attempt to match the entry-header regex @(\w+)\s*\x7b([^,]+), at the
start of the input (line 104).  On success returns (entry type, input after
the comma).  The greedy quantifiers are deterministic here because each
repeated class is disjoint from the character that must follow it. -/
def tryHeader : List Char → Option (List Char × List Char)
  | [] => none
  | c :: rest =>
    if c = '@' then
      let w := rest.takeWhile isWordChar
      if w = [] then none
      else
        match (rest.drop w.length).dropWhile isPyWs with
        | b :: r2 =>
          if b = lbrace then
            let k := r2.takeWhile (fun c => !(c == ','))
            if k = [] then none
            else
              match r2.drop k.length with
              | c2 :: r3 => if c2 = ',' then some (w, r3) else none
              | [] => none
          else none
        | [] => none
    else none

/-- re.search of the entry-header pattern: first position at which
tryHeader succeeds. -/
def findHeader : List Char → Option (List Char × List Char)
  | [] => none
  | c :: rest =>
    match tryHeader (c :: rest) with
    | some r => some r
    | none => findHeader rest

/-- Attempt to match the field regex (\w+)\s*=\s* at the start of the
input (line 128).  On success returns (key, input after the separator). -/
def tryField (l : List Char) : Option (List Char × List Char) :=
  let w := l.takeWhile isWordChar
  if w = [] then none
  else
    match (l.drop w.length).dropWhile isPyWs with
    | c :: r2 => if c = '=' then some (w, r2.dropWhile isPyWs) else none
    | [] => none

/-- re.search of the field pattern: first position at which tryField
succeeds. -/
def findField : List Char → Option (List Char × List Char)
  | [] => none
  | c :: rest =>
    match tryField (c :: rest) with
    | some r => some r
    | none => findField rest

/-- The field loop of _parse_bib (lines 128-138): repeatedly find a
"key =" separator and extract its value; keys are lowercased.  Each
iteration consumes at least two characters, so fuel = length + 1 never
runs out. -/
def parseFieldsAux : Nat → List Char → List (String × String)
  | 0, _ => []
  | fuel + 1, body =>
    match findField body with
    | none => []
    | some (key, afterEq) =>
      let vr := _extract_value afterEq
      (String.mk (pyLower key), String.mk vr.1) :: parseFieldsAux fuel vr.2

def parseFields (body : List Char) : List (String × String) :=
  parseFieldsAux (body.length + 1) body

/-- A raw entry: field mapping in insertion order; Python dict semantics
(later duplicate assignments win) are recovered by dget below. -/
def dget (e : List (String × String)) (k : String) : Option String :=
  e.reverse.lookup k

/-- The entry loop of _parse_bib (lines 106-141): find the next entry
header, take the brace-balanced body, parse its fields, continue after the
entry.  Each iteration consumes at least five characters. -/
def parseBibAux : Nat → List Char → List (List (String × String))
  | 0, _ => []
  | fuel + 1, text =>
    match findHeader text with
    | none => []
    | some (ty, afterComma) =>
      let br := braceLoop afterComma 1 []
      (("_type", String.mk (pyLower ty)) :: parseFields br.1) :: parseBibAux fuel br.2

/-- _parse_bib (lines 98-141). -/
def _parse_bib (text : String) : List (List (String × String)) :=
  parseBibAux (text.toList.length + 1) text.toList

/-- Python str.replace(pat, rep): replace non-overlapping occurrences left
to right; the replacement is not rescanned.  Fuel: each step consumes at
least one character of the input (all patterns used are nonempty). -/
def replaceAllAux : Nat → List Char → List Char → List Char → List Char
  | 0, _, _, l => l
  | fuel + 1, pat, rep, l =>
    match l with
    | [] => []
    | c :: rest =>
      if pat.isPrefixOf (c :: rest) then
        rep ++ replaceAllAux fuel pat rep ((c :: rest).drop pat.length)
      else c :: replaceAllAux fuel pat rep rest

def replaceAll (pat rep l : List Char) : List Char :=
  replaceAllAux (l.length + 1) pat rep l

/-- re.sub of the pattern bslash [a-zA-Z]+ \s* with the empty string
(line 63): at a backslash followed by at least one ASCII letter, drop the
backslash, the maximal letter run and any following whitespace; otherwise
keep the character.  The greedy runs are deterministic because letters,
whitespace and every follow character are disjoint. -/
def stripCmdsAux : Nat → List Char → List Char
  | 0, l => l
  | _ + 1, [] => []
  | fuel + 1, c :: rest =>
    if c = bslash then
      let letters := rest.takeWhile Char.isAlpha
      if letters = [] then c :: stripCmdsAux fuel rest
      else stripCmdsAux fuel ((rest.drop letters.length).dropWhile isPyWs)
    else c :: stripCmdsAux fuel rest

def stripCmds (l : List Char) : List Char := stripCmdsAux (l.length + 1) l

/-- _clean_latex (lines 55-66): fixed replacements, command stripping,
brace removal, final strip. -/
def _clean_latex (v : List Char) : List Char :=
  let v1 := replaceAll "\\flqq".toList "«".toList v
  let v2 := replaceAll "\\frqq".toList "»".toList v1
  let v3 := replaceAll "\\dq".toList [dquote] v2
  let v4 := replaceAll "~".toList " ".toList v3
  let v5 := replaceAll "--".toList "–".toList v4
  let v6 := stripCmds v5
  let v7 := v6.filter (fun c => !(c == lbrace || c == rbrace))
  pyStrip v7

/-- _strip_braces (lines 48-52): while the value starts with a brace and
ends with a brace, peel one layer.  Each iteration removes two characters. -/
def stripBracesAux : Nat → List Char → List Char
  | 0, l => l
  | fuel + 1, l =>
    if l.head? = some lbrace ∧ l.getLast? = some rbrace then
      stripBracesAux fuel l.dropLast.tail
    else l

def _strip_braces (l : List Char) : List Char := stripBracesAux (l.length + 1) l

/-- Attempt to match the separator regex \s+and\s+ at the start of the
input; on success returns the input after the separator. -/
def matchAndSep (l : List Char) : Option (List Char) :=
  let ws1 := l.takeWhile isPyWs
  if ws1 = [] then none
  else
    match l.drop ws1.length with
    | 'a' :: 'n' :: 'd' :: r2 =>
      let ws2 := r2.takeWhile isPyWs
      if ws2 = [] then none else some (r2.drop ws2.length)
    | _ => none

/-- re.split(\s+and\s+): cut at each leftmost non-overlapping separator
match.  Each step consumes at least one character. -/
def splitAndAux : Nat → List Char → List Char → List (List Char)
  | 0, acc, l => [acc.reverse ++ l]
  | _ + 1, acc, [] => [acc.reverse]
  | fuel + 1, acc, c :: rest =>
    match matchAndSep (c :: rest) with
    | some r => acc.reverse :: splitAndAux fuel [] r
    | none => splitAndAux fuel (c :: acc) rest

def splitAnd (raw : List Char) : List (List Char) :=
  splitAndAux (raw.length + 1) [] raw

/-- The per-piece body of the _parse_author_list loop (lines 79-94):
strip; drop empty pieces and pieces with two or more commas; reorder a
single "Last, First" comma; LaTeX-clean; drop if the cleaned name is
empty. -/
def processPiece (part : List Char) : Option (List Char) :=
  let p := pyStrip part
  if p = [] then none
  else if 2 ≤ p.count ',' then none
  else
    let name :=
      if ',' ∈ p then
        let last := p.takeWhile (fun c => !(c == ','))
        let first := (p.drop last.length).drop 1
        pyStrip first ++ ' ' :: pyStrip last
      else p
    let name2 := _clean_latex name
    if name2 = [] then none else some name2

/-- _parse_author_list (lines 69-95). -/
def _parse_author_list (raw : List Char) : List (List Char) :=
  (splitAnd raw).filterMap processPiece

/-- Python substring membership (needle in haystack). -/
def containsSub : List Char → List Char → Bool
  | n, [] => n.isPrefixOf []
  | n, c :: rest => n.isPrefixOf (c :: rest) || containsSub n rest

/-- OWNER_LAST_NAMES (line 25). -/
def OWNER_LAST_NAMES : List (List Char) := ["Rozhkov".toList, "Рожков".toList]

/-- _emphasise_owner (lines 214-222): wrap a name in *** when it
case-insensitively contains an owner surname variant. -/
def _emphasise_owner (authors : List String) : List String :=
  authors.map fun name =>
    if OWNER_LAST_NAMES.any (fun ln => containsSub (pyLower ln) (pyLower name.toList)) then
      "***" ++ name ++ "***"
    else name

/-- MONTH_MAP (lines 32-45). -/
def MONTH_MAP : List (String × String) :=
  [("jan", "01"), ("feb", "02"), ("mar", "03"), ("apr", "04"),
   ("may", "05"), ("jun", "06"), ("jul", "07"), ("aug", "08"),
   ("sep", "09"), ("oct", "10"), ("nov", "11"), ("dec", "12")]

/-- Python str.isdigit for ASCII strings: nonempty and all digits. -/
def pyIsDigit (l : List Char) : Bool := !l.isEmpty && l.all Char.isDigit

/-- Python int() on an all-digit string. -/
def strToNat (l : List Char) : Nat :=
  l.foldl (fun acc c => acc * 10 + (c.toNat - 48)) 0

/-- Python str.zfill(2): left-pad with zeros to width two (strings already
at least two characters long are unchanged). -/
def zfill2 (l : List Char) : List Char :=
  if l.length < 2 then List.replicate (2 - l.length) '0' ++ l else l

/-- The body of _resolve_month on a present field (lines 206-211):
strip, lowercase, table lookup, else accept digit strings 1..12. -/
def resolveMonthStr (raw : String) : Option String :=
  let r := pyLower (pyStrip raw.toList)
  match assocFind MONTH_MAP (String.mk r) with
  | some m => some m
  | none =>
    if pyIsDigit r ∧ 1 ≤ strToNat r ∧ strToNat r ≤ 12 then
      some (String.mk (zfill2 r))
    else none

/-- _resolve_month (lines 202-211); None propagates. -/
def _resolve_month : Option String → Option String
  | none => none
  | some s => resolveMonthStr s

/-- A RenderCV publication record; journal and doi keys are optional. -/
structure Publication where
  title : String
  authors : List String
  journal : Option String
  date : String
  doi : Option String
deriving DecidableEq

/-- bib_entry_to_publication (lines 225-261). -/
def bib_entry_to_publication (e : List (String × String)) : Option Publication :=
  match dget e "title", dget e "year" with
  | some rawTitle, some rawYear =>
    if rawTitle = "" ∨ rawYear = "" then none
    else
      let title := String.mk (_clean_latex (_strip_braces rawTitle.toList))
      let rawAuthors := (dget e "author").getD ""
      let authors := _emphasise_owner ((_parse_author_list rawAuthors.toList).map String.mk)
      let j := (dget e "journal").getD ""
      let venue0 := if j ≠ "" then j else (dget e "booktitle").getD ""
      let venue := String.mk (_clean_latex (_strip_braces venue0.toList))
      let month := _resolve_month (dget e "month")
      let year := String.mk (pyStrip rawYear.toList)
      let date :=
        match month with
        | some m => year ++ "-" ++ m
        | none => year
      some { title := title
             authors := authors
             journal := if venue ≠ "" then some venue else none
             date := date
             doi :=
               match dget e "doi" with
               | some d => if d ≠ "" then some (String.mk (_strip_braces d.toList)) else none
               | none => none }
  | _, _ => none

/-- Python string comparison: lexicographic by code point. -/
def strLtB : List Char → List Char → Bool
  | [], [] => false
  | [], _ :: _ => true
  | _ :: _, [] => false
  | a :: as, b :: bs =>
    if a.toNat < b.toNat then true
    else if b.toNat < a.toNat then false
    else strLtB as bs

/-- Stable insertion step for sorting by date descending: keep walking
past strictly larger dates, insert before the first date less than or
equal (so earlier records with equal dates stay first, matching Python's
stable sort with reverse=True). -/
def insertDesc (p : Publication) : List Publication → List Publication
  | [] => [p]
  | q :: rest =>
    if strLtB p.date.toList q.date.toList then q :: insertDesc p rest
    else p :: q :: rest

/-- publications.sort(key=date, reverse=True) (line 287): stable sort by
date descending under plain string comparison. -/
def sortPubs (l : List Publication) : List Publication := l.foldr insertDesc []

/-- A YAML value, as far as the main routine inspects one. -/
inductive Yaml where
  | str : String → Yaml
  | seq : List Yaml → Yaml
  | map : List (String × Yaml) → Yaml
  | nullv : Yaml

/-- The YAML rendering of one publication record, with keys in the
insertion order of the Python dict (lines 251-259). -/
def pubYaml (p : Publication) : Yaml :=
  Yaml.map
    ([("title", Yaml.str p.title), ("authors", Yaml.seq (p.authors.map Yaml.str))]
     ++ (match p.journal with | some j => [("journal", Yaml.str j)] | none => [])
     ++ [("date", Yaml.str p.date)]
     ++ (match p.doi with | some d => [("doi", Yaml.str d)] | none => []))

/-- Python dict assignment on an association-list map: replace in place
when present, else append. -/
def setKey (m : List (String × Yaml)) (k : String) (v : Yaml) : List (String × Yaml) :=
  if m.any (fun kv => kv.1 == k) then
    m.map (fun kv => if kv.1 = k then (k, v) else kv)
  else m ++ [(k, v)]

def lookupY (m : List (String × Yaml)) (k : String) : Option Yaml :=
  m.reverse.lookup k

/-- Diagnostics main prints to stderr before exiting nonzero. -/
inductive Diag where
  | missingBib : Diag
  | missingCv : Diag
  | missingKey : String → Diag

/-- The observable outcome of one run of main: process exit code,
stderr diagnostics, and the document written back (none when main exits
before reaching the single write). -/
structure MainOutcome where
  exitCode : Nat
  stderr : List Diag
  written : Option Yaml

/-- main (lines 269-305) over an abstract world: the bibliography file
content (none when the file is missing) and the parsed target document
(none when the file is missing).  Uncaught type errors on a malformed
target document (a non-mapping where main indexes into one) terminate the
process with exit code 1 before the write, modelled as error outcomes with
an empty diagnostic list. -/
def mainModel (bibText : Option String) (cvDoc : Option Yaml) : MainOutcome :=
  match bibText with
  | none => ⟨1, [Diag.missingBib], none⟩
  | some bib =>
    match cvDoc with
    | none => ⟨1, [Diag.missingCv], none⟩
    | some cv =>
      let pubs := sortPubs ((_parse_bib bib).filterMap bib_entry_to_publication)
      match cv with
      | Yaml.map m =>
        match lookupY m "cv" with
        | some (Yaml.map cvm) =>
          let sections :=
            match lookupY cvm "sections" with
            | some (Yaml.map s) => some s
            | none => some []
            | some _ => none
          match sections with
          | some s =>
            let s2 := setKey s "Publications" (Yaml.seq (pubs.map pubYaml))
            ⟨0, [], some (Yaml.map (setKey m "cv" (Yaml.map (setKey cvm "sections" (Yaml.map s2)))))⟩
          | none => ⟨1, [], none⟩
        | some _ => ⟨1, [], none⟩
        | none => ⟨1, [Diag.missingKey "cv"], none⟩
      | _ => ⟨1, [], none⟩

/-- Brace-balanced character strings: the empty string, a non-brace
character before a balanced string, or a balanced string wrapped in a
matching brace pair followed by a balanced string. -/
inductive Balanced : List Char → Prop where
  | nil : Balanced []
  | chr : ∀ (c : Char) (s : List Char), c ≠ lbrace → c ≠ rbrace → Balanced s →
      Balanced (c :: s)
  | nest : ∀ (s t : List Char), Balanced s → Balanced t →
      Balanced (lbrace :: s ++ rbrace :: t)

/-- Quoted-value content with no unescaped quote: sequences of ordinary
characters and backslash-escaped characters (the escaped character may be
a quote or another backslash). -/
inductive QContent : List Char → Prop where
  | nil : QContent []
  | chr : ∀ (c : Char) (s : List Char), c ≠ dquote → c ≠ bslash → QContent s →
      QContent (c :: s)
  | esc : ∀ (c : Char) (s : List Char), QContent s → QContent (bslash :: c :: s)

/-- Month resolution as the amended specification describes it: after
stripping surrounding whitespace and lowercasing, the twelve three-letter
abbreviations map to fixed two-digit strings; an all-digit string whose
value lies between 1 and 12 is kept and left-padded with zeros to length
at least two; anything else resolves to no month. -/
def resolveMonthSpec (raw : String) : Option String :=
  let t := pyLower (pyStrip raw.toList)
  if t = "jan".toList then some "01"
  else if t = "feb".toList then some "02"
  else if t = "mar".toList then some "03"
  else if t = "apr".toList then some "04"
  else if t = "may".toList then some "05"
  else if t = "jun".toList then some "06"
  else if t = "jul".toList then some "07"
  else if t = "aug".toList then some "08"
  else if t = "sep".toList then some "09"
  else if t = "oct".toList then some "10"
  else if t = "nov".toList then some "11"
  else if t = "dec".toList then some "12"
  else if t ≠ [] ∧ t.all Char.isDigit ∧ 1 ≤ strToNat t ∧ strToNat t ≤ 12 then
    some (String.mk (if 2 ≤ t.length then t else List.replicate (2 - t.length) '0' ++ t))
  else none

/-- The round-trip input of claim C1. -/
def bibC1 : String :=
  "@article\x7bkey2020, title = \x7bFoo\x7d, author = \x7bSmith, Jane and Doe, John\x7d, journal = \x7bBar\x7d, year = \x7b2020\x7d, month = \x7bmar\x7d\x7d"

/-- C1: scanning the entry with fields title=\x7bFoo\x7d,
author=\x7bSmith, Jane and Doe, John\x7d, journal=\x7bBar\x7d,
year=\x7b2020\x7d, month=\x7bmar\x7d and normalizing it produces exactly
one publication record with title "Foo", authors ["Jane Smith",
"John Doe"] in source order and unwrapped (neither contains an owner
surname variant), journal "Bar" and date "2020-03". -/
theorem claim_c1 :
    (_parse_bib bibC1).map bib_entry_to_publication =
      [some { title := "Foo", authors := ["Jane Smith", "John Doe"],
              journal := some "Bar", date := "2020-03", doi := none }] := by
  rfl

/-- C2: the normalizer produces a record exactly when the entry carries a
present, non-empty title field and a present, non-empty year field. -/
theorem claim_c2 (e : List (String × String)) :
    (bib_entry_to_publication e).isSome ↔
      ((∃ t, dget e "title" = some t ∧ t ≠ "") ∧
       (∃ y, dget e "year" = some y ∧ y ≠ "")) := by
  cases ht : dget e "title" with
  | none => simp [bib_entry_to_publication, ht]
  | some t =>
    cases hy : dget e "year" with
    | none => simp [bib_entry_to_publication, ht, hy]
    | some y =>
      by_cases h : t = "" ∨ y = ""
      · have hnone : bib_entry_to_publication e = none := by
          simp [bib_entry_to_publication, ht, hy, h]
        rw [hnone]
        simp only [Option.isSome_none, Bool.false_eq_true, false_iff]
        rintro ⟨⟨t2, ht2, hne⟩, ⟨y2, hy2, hne2⟩⟩
        obtain rfl : t2 = t := (Option.some.inj ht2).symm
        obtain rfl : y2 = y := (Option.some.inj hy2).symm
        rcases h with h | h
        · exact hne h
        · exact hne2 h
      · push_neg at h
        simp [bib_entry_to_publication, ht, hy, h.1, h.2]

theorem assocFind_mem {α β : Type} [DecidableEq α] (l : List (α × β)) (a : α) (b : β)
    (h : assocFind l a = some b) : (a, b) ∈ l := by
  induction l with
  | nil => simp [assocFind] at h
  | cons kv rest ih =>
    obtain ⟨k, v⟩ := kv
    by_cases hk : a = k
    · subst hk
      simp only [assocFind, if_pos rfl, if_true, Option.some.injEq] at h
      rw [← h]
      exact List.mem_cons_self _ _
    · simp only [assocFind, if_neg hk] at h
      exact List.mem_cons_of_mem _ (ih h)

theorem isPyWs_pyLowerChar (c : Char) : isPyWs (pyLowerChar c) = isPyWs c := by
  unfold pyLowerChar
  cases h : assocFind lowerPairs c with
  | none => rfl
  | some v =>
    have hm := assocFind_mem lowerPairs c v h
    have hfact : ∀ p ∈ lowerPairs, isPyWs p.1 = false ∧ isPyWs p.2 = false := by decide
    obtain ⟨h1, h2⟩ := hfact _ hm
    rw [h2, h1]

theorem dropWhile_append_all {p : Char → Bool} (ws l : List Char)
    (h : ∀ c ∈ ws, p c = true) : (ws ++ l).dropWhile p = l.dropWhile p := by
  induction ws with
  | nil => rfl
  | cons c rest ih =>
    rw [List.cons_append, List.dropWhile_cons, h c (List.mem_cons_self c rest)]
    exact if_pos rfl ▸ ih (fun d hd => h d (List.mem_cons_of_mem c hd))

theorem dropWhile_all_nil {p : Char → Bool} (ws : List Char)
    (h : ∀ c ∈ ws, p c = true) : ws.dropWhile p = [] := by
  have := dropWhile_append_all (p := p) ws [] h
  simpa using this

theorem takeWhile_append_stop {p : Char → Bool} (l tail : List Char) (x : Char)
    (hl : ∀ c ∈ l, p c = true) (hx : p x = false) :
    (l ++ x :: tail).takeWhile p = l := by
  induction l with
  | nil => simp [List.takeWhile_cons, hx]
  | cons c rest ih =>
    rw [List.cons_append, List.takeWhile_cons, hl c (List.mem_cons_self c rest)]
    simp only [if_true]
    exact congrArg (c :: ·) (ih (fun d hd => hl d (List.mem_cons_of_mem c hd)))

theorem pyStrip_sandwich (ws1 mid ws2 : List Char)
    (h1 : ∀ c ∈ ws1, isPyWs c = true) (h2 : ∀ c ∈ ws2, isPyWs c = true)
    (hm : ∀ c ∈ mid, isPyWs c = false) : pyStrip (ws1 ++ mid ++ ws2) = mid := by
  unfold pyStrip
  rw [List.append_assoc, dropWhile_append_all ws1 (mid ++ ws2) h1]
  cases mid with
  | nil =>
    rw [List.nil_append, dropWhile_all_nil ws2 h2]
    rfl
  | cons m ms =>
    have hm0 : isPyWs m = false := hm m (List.mem_cons_self m ms)
    rw [List.cons_append, List.dropWhile_cons, hm0]
    simp only [Bool.false_eq_true, if_false]
    rw [show (m :: (ms ++ ws2)).reverse = ws2.reverse ++ (ms.reverse ++ [m]) by
      simp [List.reverse_cons, List.reverse_append, List.append_assoc]]
    rw [dropWhile_append_all ws2.reverse (ms.reverse ++ [m])
      (fun c hc => h2 c (List.mem_reverse.mp hc))]
    rcases hrev : ms.reverse ++ [m] with _ | ⟨d, ds⟩
    · exact absurd hrev (by simp)
    · have hd : d ∈ m :: ms := by
        have hmem : d ∈ ms.reverse ++ [m] := by rw [hrev]; exact List.mem_cons_self d ds
        rcases List.mem_append.mp hmem with h | h
        · exact List.mem_cons_of_mem m (List.mem_reverse.mp h)
        · simp only [List.mem_singleton] at h
          rw [h]
          exact List.mem_cons_self m ms
      rw [List.dropWhile_cons, hm d hd]
      simp only [Bool.false_eq_true, if_false]
      rw [← hrev]
      simp

/-- C5 counterexample: the raw month value "007" is a numeric string whose
integer value 7 lies between 1 and 12, so the claim predicts resolution to
the number zero-padded to two digits, "07"; the code applies zfill(2) to
the three-character string and returns "007" unchanged. -/
theorem claim_c5_counterexample :
    resolveMonthStr "007" = some "007" ∧ some "007" ≠ some "07" := by
  constructor
  · rfl
  · decide

/-- C5 as amended: month resolution strips and lowercases first, keeps the
digit string itself (left-padded with zeros to length at least two) rather
than re-rendering its numeric value, and the record date is the trimmed
year, hyphen-joined with the month when one resolved. -/
theorem claim_c5 :
    (∀ raw, resolveMonthStr raw = resolveMonthSpec raw) ∧
    (∀ (e : List (String × String)) (y : String) (p : Publication),
       dget e "year" = some y → bib_entry_to_publication e = some p →
       p.date = match _resolve_month (dget e "month") with
         | some m => String.mk (pyStrip y.toList) ++ "-" ++ m
         | none => String.mk (pyStrip y.toList)) := by
  constructor
  · intro raw
    unfold resolveMonthStr resolveMonthSpec
    generalize pyLower (pyStrip raw.toList) = t
    dsimp only
    by_cases e1 : t = "jan".toList
    · rw [e1]; rfl
    by_cases e2 : t = "feb".toList
    · rw [e2]; rfl
    by_cases e3 : t = "mar".toList
    · rw [e3]; rfl
    by_cases e4 : t = "apr".toList
    · rw [e4]; rfl
    by_cases e5 : t = "may".toList
    · rw [e5]; rfl
    by_cases e6 : t = "jun".toList
    · rw [e6]; rfl
    by_cases e7 : t = "jul".toList
    · rw [e7]; rfl
    by_cases e8 : t = "aug".toList
    · rw [e8]; rfl
    by_cases e9 : t = "sep".toList
    · rw [e9]; rfl
    by_cases e10 : t = "oct".toList
    · rw [e10]; rfl
    by_cases e11 : t = "nov".toList
    · rw [e11]; rfl
    by_cases e12 : t = "dec".toList
    · rw [e12]; rfl
    have hfind : assocFind MONTH_MAP (String.mk t) = none := by
      simp only [MONTH_MAP, assocFind, String.ext_iff, String.toList] at e1 e2 e3 e4 e5 e6 e7 e8 e9 e10 e11 e12 ⊢
      simp [e1, e2, e3, e4, e5, e6, e7, e8, e9, e10, e11, e12, String.ext_iff]
    rw [hfind]
    rw [if_neg e1, if_neg e2, if_neg e3, if_neg e4, if_neg e5, if_neg e6,
        if_neg e7, if_neg e8, if_neg e9, if_neg e10, if_neg e11, if_neg e12]
    have hz : zfill2 t = (if 2 ≤ t.length then t else List.replicate (2 - t.length) '0' ++ t) := by
      unfold zfill2
      rcases Nat.lt_or_ge t.length 2 with hlt | hge
      · rw [if_pos hlt, if_neg (by omega)]
      · rw [if_neg (by omega), if_pos hge]
    have hiff : (pyIsDigit t = true ∧ 1 ≤ strToNat t ∧ strToNat t ≤ 12) ↔
        (t ≠ [] ∧ t.all Char.isDigit = true ∧ 1 ≤ strToNat t ∧ strToNat t ≤ 12) := by
      unfold pyIsDigit
      simp [List.isEmpty_iff, and_assoc]
    rw [if_congr hiff (by rw [hz]) rfl]
  · intro e y p hy hp
    cases ht : dget e "title" with
    | none => simp [bib_entry_to_publication, ht] at hp
    | some t =>
      by_cases h0 : t = "" ∨ y = ""
      · simp [bib_entry_to_publication, ht, hy, h0] at hp
      · simp only [bib_entry_to_publication, ht, hy, if_neg h0, Option.some.injEq] at hp
        rw [← hp]

/-- C5 witness: claim_c5 instantiated at the month "13" and at an entry
with year " 2020 " and unresolvable month "13", whose record date is the
bare trimmed year. -/
theorem claim_c5_witness :
    resolveMonthStr "13" = resolveMonthSpec "13" ∧
    ({ title := "T", authors := [], journal := none, date := "2020", doi := none } : Publication).date
      = match _resolve_month (dget [("title", "T"), ("year", " 2020 "), ("month", "13")] "month") with
        | some m => String.mk (pyStrip " 2020 ".toList) ++ "-" ++ m
        | none => String.mk (pyStrip " 2020 ".toList) :=
  ⟨claim_c5.1 "13",
   claim_c5.2 [("title", "T"), ("year", " 2020 "), ("month", "13")] " 2020 "
     { title := "T", authors := [], journal := none, date := "2020", doi := none } rfl rfl⟩

theorem assocFind_month (k v : String) (h : (k, v) ∈ MONTH_MAP) :
    assocFind MONTH_MAP k = some v := by
  fin_cases h <;> rfl

theorem month_key_chars (k v : String) (h : (k, v) ∈ MONTH_MAP) :
    k.toList ≠ [] ∧ ∀ c ∈ k.toList, isPyWs c = false := by
  fin_cases h <;> exact ⟨by decide, by decide⟩

/-- C10: month resolution strips and lowercases before lookup, so an
abbreviation in any letter case, surrounded by any whitespace, resolves to
the same two-digit month as the lowercase abbreviation itself. -/
theorem claim_c10 (ws1 s ws2 : List Char) (k v : String)
    (hkv : (k, v) ∈ MONTH_MAP)
    (h1 : ∀ c ∈ ws1, isPyWs c = true) (h2 : ∀ c ∈ ws2, isPyWs c = true)
    (hs : pyLower s = k.toList) :
    resolveMonthStr (String.mk (ws1 ++ s ++ ws2)) = some v := by
  have hmid : ∀ c ∈ s, isPyWs c = false := by
    intro c hc
    have hmem : pyLowerChar c ∈ k.toList := hs ▸ List.mem_map_of_mem pyLowerChar hc
    rw [← isPyWs_pyLowerChar c]
    exact (month_key_chars k v hkv).2 _ hmem
  unfold resolveMonthStr
  show (match assocFind MONTH_MAP (String.mk (pyLower (pyStrip (ws1 ++ s ++ ws2)))) with
        | some m => some m
        | none => _) = some v
  rw [pyStrip_sandwich ws1 s ws2 h1 h2 hmid, hs]
  have hk : String.mk k.toList = k := rfl
  rw [hk, assocFind_month k v hkv]

/-- C10 witness: claim_c10 at the mixed-case, whitespace-padded month
" MAr\t". -/
theorem claim_c10_witness :
    resolveMonthStr (String.mk ([' '] ++ ['M', 'A', 'r'] ++ ['\t'])) = some "03" :=
  claim_c10 [' '] ['M', 'A', 'r'] ['\t'] "mar" "03" (by decide) (by decide)
    (by decide) (by decide)

theorem strLtB_asymm (a b : List Char) (h : strLtB a b = true) :
    strLtB b a = false := by
  induction a generalizing b with
  | nil =>
    cases b with
    | nil => simp [strLtB] at h
    | cons x xs => rfl
  | cons x xs ih =>
    cases b with
    | nil => simp [strLtB] at h
    | cons y ys =>
      by_cases hxy : x.toNat < y.toNat
      · simp only [strLtB]
        rw [if_neg (by omega), if_pos hxy]
      · by_cases hyx : y.toNat < x.toNat
        · simp only [strLtB, if_neg hxy, if_pos hyx] at h
          exact absurd h (by simp)
        · simp only [strLtB, if_neg hxy, if_neg hyx] at h
          simp only [strLtB, if_neg hyx, if_neg hxy]
          exact ih ys h

theorem strLtB_neg_trans (a b c : List Char) (h1 : strLtB a b = false)
    (h2 : strLtB b c = false) : strLtB a c = false := by
  induction a generalizing b c with
  | nil =>
    cases b with
    | nil =>
      cases c with
      | nil => rfl
      | cons z zs => simp [strLtB] at h2
    | cons y ys => simp [strLtB] at h1
  | cons x xs ih =>
    cases c with
    | nil => rfl
    | cons z zs =>
      cases b with
      | nil => simp [strLtB] at h2
      | cons y ys =>
        by_cases hxy : x.toNat < y.toNat
        · simp only [strLtB, if_pos hxy] at h1
          exact absurd h1 (by simp)
        · by_cases hyz : y.toNat < z.toNat
          · simp only [strLtB, if_pos hyz] at h2
            exact absurd h2 (by simp)
          · simp only [strLtB]
            rw [if_neg (by omega)]
            by_cases hzx : z.toNat < x.toNat
            · rw [if_pos hzx]
            · rw [if_neg hzx]
              have hxy2 : y.toNat = x.toNat := by omega
              have hyz2 : z.toNat = y.toNat := by omega
              simp only [strLtB, if_neg hxy, if_neg (by omega : ¬ y.toNat < x.toNat)] at h1
              simp only [strLtB, if_neg hyz, if_neg (by omega : ¬ z.toNat < y.toNat)] at h2
              exact ih ys zs h1 h2

theorem mem_insertDesc (p x : Publication) (l : List Publication)
    (h : x ∈ insertDesc p l) : x = p ∨ x ∈ l := by
  induction l with
  | nil =>
    simp only [insertDesc, List.mem_singleton] at h
    exact Or.inl h
  | cons q rest ih =>
    by_cases hlt : strLtB p.date.toList q.date.toList = true
    · simp only [insertDesc, if_pos hlt] at h
      rcases List.mem_cons.mp h with rfl | hx
      · exact Or.inr (List.mem_cons_self _ _)
      · rcases ih hx with hx | hx
        · exact Or.inl hx
        · exact Or.inr (List.mem_cons_of_mem _ hx)
    · simp only [insertDesc, if_neg hlt] at h
      rcases List.mem_cons.mp h with rfl | hx
      · exact Or.inl rfl
      · exact Or.inr hx

theorem pairwise_insertDesc (p : Publication) (l : List Publication)
    (h : l.Pairwise (fun a b => strLtB a.date.toList b.date.toList = false)) :
    (insertDesc p l).Pairwise (fun a b => strLtB a.date.toList b.date.toList = false) := by
  induction l with
  | nil => simp [insertDesc]
  | cons q rest ih =>
    rcases List.pairwise_cons.mp h with ⟨hq, hrest⟩
    by_cases hlt : strLtB p.date.toList q.date.toList = true
    · simp only [insertDesc, if_pos hlt]
      refine List.pairwise_cons.mpr ⟨?_, ih hrest⟩
      intro x hx
      rcases mem_insertDesc p x rest hx with rfl | hxr
      · exact strLtB_asymm _ _ hlt
      · exact hq x hxr
    · simp only [insertDesc, if_neg hlt]
      refine List.pairwise_cons.mpr ⟨?_, h⟩
      intro x hx
      have hpq : strLtB p.date.toList q.date.toList = false := by
        cases hc : strLtB p.date.toList q.date.toList
        · rfl
        · exact absurd hc hlt
      rcases List.mem_cons.mp hx with rfl | hxr
      · exact hpq
      · exact strLtB_neg_trans _ _ _ hpq (hq x hxr)

/-- C7: the output publication list is sorted by date descending under
plain lexicographic string comparison (no earlier record has a date that
compares strictly below a later one); on the three example dates "2021",
"2020-06" and "2022-01" the sort yields the order "2022-01", "2021",
"2020-06". -/
theorem claim_c7 :
    (∀ l : List Publication,
       (sortPubs l).Pairwise (fun a b => strLtB a.date.toList b.date.toList = false)) ∧
    sortPubs
      [{ title := "A", authors := [], journal := none, date := "2021", doi := none },
       { title := "B", authors := [], journal := none, date := "2020-06", doi := none },
       { title := "C", authors := [], journal := none, date := "2022-01", doi := none }] =
      [{ title := "C", authors := [], journal := none, date := "2022-01", doi := none },
       { title := "A", authors := [], journal := none, date := "2021", doi := none },
       { title := "B", authors := [], journal := none, date := "2020-06", doi := none }] := by
  constructor
  · intro l
    induction l with
    | nil => simp [sortPubs]
    | cons a l ih => exact pairwise_insertDesc a _ ih
  · rfl

/-- C8: when the target document lacks the top-level "cv" key, main exits
with status 1 after emitting the diagnostic naming that key, and nothing
is written; moreover every run that exits nonzero writes nothing (all
fatal conditions precede the single write). -/
theorem claim_c8 :
    (∀ (bib : String) (m : List (String × Yaml)), lookupY m "cv" = none →
       mainModel (some bib) (some (Yaml.map m)) =
         ⟨1, [Diag.missingKey "cv"], none⟩) ∧
    (∀ (bib : Option String) (cv : Option Yaml),
       (mainModel bib cv).exitCode ≠ 0 → (mainModel bib cv).written = none) := by
  constructor
  · intro bib m h
    simp [mainModel, h]
  · intro bib cv hne
    cases bib with
    | none => rfl
    | some b =>
      cases cv with
      | none => rfl
      | some c =>
        cases c with
        | str s => rfl
        | seq l => rfl
        | nullv => rfl
        | map m =>
          cases hcv : lookupY m "cv" with
          | none => simp [mainModel, hcv]
          | some v =>
            cases v with
            | map cvm =>
              cases hs : lookupY cvm "sections" with
              | none =>
                exfalso
                exact hne (by simp [mainModel, hcv, hs])
              | some sv =>
                cases sv with
                | map s =>
                  exfalso
                  exact hne (by simp [mainModel, hcv, hs])
                | str s => simp [mainModel, hcv, hs]
                | seq l => simp [mainModel, hcv, hs]
                | nullv => simp [mainModel, hcv, hs]
            | str s => simp [mainModel, hcv]
            | seq l => simp [mainModel, hcv]
            | nullv => simp [mainModel, hcv]

/-- C8 witness: claim_c8 at an empty bibliography and an empty target
mapping (which lacks the "cv" key), and at a run with both files missing
(exit 1, nothing written). -/
theorem claim_c8_witness :
    mainModel (some "") (some (Yaml.map [])) = ⟨1, [Diag.missingKey "cv"], none⟩ ∧
    (mainModel none none).written = none :=
  ⟨claim_c8.1 "" [] rfl, claim_c8.2 none none (by decide)⟩

theorem braceLoop_thru (s : List Char) (hb : Balanced s) :
    ∀ (d : Nat) (acc t : List Char),
      braceLoop (s ++ t) (d + 1) acc = braceLoop t (d + 1) (s.reverse ++ acc) := by
  induction hb with
  | nil => intro d acc t; rfl
  | chr c s hc1 hc2 _ ih =>
    intro d acc t
    rw [List.cons_append]
    simp only [braceLoop, if_neg hc1, if_neg hc2]
    rw [ih d (c :: acc) t]
    simp [List.append_assoc]
  | nest s t1 _ _ ihs iht =>
    intro d acc t
    rw [show (lbrace :: s ++ rbrace :: t1) ++ t
          = lbrace :: (s ++ (rbrace :: (t1 ++ t))) from by simp]
    simp only [braceLoop, if_pos rfl]
    rw [ihs (d + 1) (lbrace :: acc) (rbrace :: (t1 ++ t))]
    simp only [braceLoop, if_neg (by decide : ¬ rbrace = lbrace), if_pos rfl,
      if_neg (by omega : ¬ d + 1 + 1 = 1)]
    rw [show d + 1 + 1 - 1 = d + 1 from by omega]
    rw [iht d (rbrace :: (s.reverse ++ lbrace :: acc)) t]
    simp [List.append_assoc]

theorem braceLoop_balanced (s rest : List Char) (hb : Balanced s) :
    braceLoop (s ++ rbrace :: rest) 1 [] = (s, rest) := by
  have h := braceLoop_thru s hb 0 [] (rbrace :: rest)
  rw [h]
  simp only [braceLoop, if_neg (by decide : ¬ rbrace = lbrace), if_pos rfl]
  simp

/-- C3: on a field value that, after leading whitespace, is a braced group
with balanced inner braces, _extract_value returns exactly the characters
between the outer brace pair (inner braces preserved), and resumes after
the closing brace, skipping trailing whitespace and commas. -/
theorem claim_c3 (ws s rest : List Char)
    (hws : ∀ c ∈ ws, isBibWs c = true) (hb : Balanced s) :
    _extract_value (ws ++ (lbrace :: (s ++ (rbrace :: rest)))) =
      (s, (rest.dropWhile isTrail)) := by
  unfold _extract_value
  rw [dropWhile_append_all ws _ hws]
  simp [List.dropWhile_cons, show isBibWs lbrace = false from rfl,
        braceLoop_balanced s rest hb]

/-- C3 witness: claim_c3 at the value " \x7ba\x7bb\x7dc\x7d , t". -/
theorem claim_c3_witness :
    _extract_value ([' '] ++ (lbrace :: (['a', lbrace, 'b', rbrace, 'c'] ++ (rbrace :: [',', ' ', 't'])))) =
      (['a', lbrace, 'b', rbrace, 'c'], ['t']) :=
  claim_c3 [' '] ['a', lbrace, 'b', rbrace, 'c'] [',', ' ', 't']
    (by decide)
    (Balanced.chr 'a' [lbrace, 'b', rbrace, 'c'] (by decide) (by decide)
      (Balanced.nest ['b'] ['c']
        (Balanced.chr 'b' [] (by decide) (by decide) Balanced.nil)
        (Balanced.chr 'c' [] (by decide) (by decide) Balanced.nil)))

theorem quoteLoop_content (s : List Char) (hq : QContent s) (rest : List Char) :
    quoteLoop (s ++ dquote :: rest) = (s, rest) := by
  induction hq with
  | nil =>
    cases rest with
    | nil => rfl
    | cons r rs => rfl
  | chr c s hc1 hc2 _ ih =>
    rw [List.cons_append]
    cases hsplit : s ++ dquote :: rest with
    | nil => exact absurd hsplit (by simp)
    | cons y ys =>
      rw [show quoteLoop (c :: y :: ys)
            = (c :: (quoteLoop (y :: ys)).1, (quoteLoop (y :: ys)).2) from by
        simp [quoteLoop, hc1, hc2]]
      rw [← hsplit, ih]
  | esc c s _ ih =>
    rw [List.cons_append, List.cons_append]
    rw [show quoteLoop (bslash :: c :: (s ++ dquote :: rest))
          = (bslash :: c :: (quoteLoop (s ++ dquote :: rest)).1,
             (quoteLoop (s ++ dquote :: rest)).2) from by
      simp [quoteLoop, (by decide : ¬ bslash = dquote)]]
    rw [ih]

/-- C4: on a quoted field value whose content consists of ordinary and
backslash-escaped characters (escaped quotes and backslashes included),
_extract_value does not stop at any escaped quote: it returns the whole
content and terminates at the first unescaped quote, then skips trailing
whitespace and commas. -/
theorem claim_c4 (ws s rest : List Char)
    (hws : ∀ c ∈ ws, isBibWs c = true) (hq : QContent s) :
    _extract_value (ws ++ (dquote :: (s ++ (dquote :: rest)))) =
      (s, (rest.dropWhile isTrail)) := by
  unfold _extract_value
  rw [dropWhile_append_all ws _ hws]
  simp [List.dropWhile_cons, show isBibWs dquote = false from rfl,
        (by decide : ¬ dquote = lbrace), quoteLoop_content s hq rest]

/-- C4 witness: claim_c4 at the value " \x22a\x5c\x22b\x22 , t" whose
content carries an escaped quote. -/
theorem claim_c4_witness :
    _extract_value ([' '] ++ (dquote :: (['a', bslash, dquote, 'b'] ++ (dquote :: [',', ' ', 't'])))) =
      (['a', bslash, dquote, 'b'], ['t']) :=
  claim_c4 [' '] ['a', bslash, dquote, 'b'] [',', ' ', 't']
    (by decide)
    (QContent.chr 'a' [bslash, dquote, 'b'] (by decide) (by decide)
      (QContent.esc dquote ['b']
        (QContent.chr 'b' [] (by decide) (by decide) QContent.nil)))

theorem dropWhile_length_le {α : Type} (p : α → Bool) (l : List α) :
    (l.dropWhile p).length ≤ l.length := by
  induction l with
  | nil => simp
  | cons a l ih =>
    rw [List.dropWhile_cons]
    by_cases h : p a = true
    · rw [if_pos h, List.length_cons]
      exact le_trans ih (by omega)
    · rw [if_neg h]

theorem braceLoop_snd_length (l : List Char) : ∀ (d : Nat) (acc : List Char),
    (braceLoop l d acc).2.length ≤ l.length := by
  induction l with
  | nil => intro d acc; simp [braceLoop]
  | cons c rest ih =>
    intro d acc
    by_cases h1 : c = lbrace
    · simp only [braceLoop, if_pos h1, List.length_cons]
      exact le_trans (ih _ _) (by omega)
    · by_cases h2 : c = rbrace
      · simp only [braceLoop, if_neg h1, if_pos h2, List.length_cons]
        by_cases h3 : d = 1
        · simp only [if_pos h3]
          simp
        · simp only [if_neg h3]
          exact le_trans (ih _ _) (by omega)
      · simp only [braceLoop, if_neg h1, if_neg h2, List.length_cons]
        exact le_trans (ih _ _) (by omega)

theorem tryHeader_length (l ty r : List Char)
    (h : tryHeader l = some (ty, r)) : r.length + 5 ≤ l.length := by
  cases l with
  | nil => exact absurd h (by simp [tryHeader])
  | cons c rest =>
    simp only [tryHeader] at h
    by_cases hc : c = '@'
    swap
    · rw [if_neg hc] at h
      exact absurd h (by simp)
    rw [if_pos hc] at h
    by_cases hw : rest.takeWhile isWordChar = []
    · rw [if_pos hw] at h
      exact absurd h (by simp)
    rw [if_neg hw] at h
    have hwlen : 1 ≤ (rest.takeWhile isWordChar).length :=
      List.length_pos.mpr hw
    cases hws : (rest.drop (rest.takeWhile isWordChar).length).dropWhile isPyWs with
    | nil => rw [hws] at h; exact absurd h (by simp)
    | cons b r2 =>
      rw [hws] at h
      simp only [] at h
      by_cases hb : b = lbrace
      swap
      · rw [if_neg hb] at h
        exact absurd h (by simp)
      rw [if_pos hb] at h
      by_cases hk : r2.takeWhile (fun c => !(c == ',')) = []
      · rw [if_pos hk] at h
        exact absurd h (by simp)
      rw [if_neg hk] at h
      have hklen : 1 ≤ (r2.takeWhile (fun c => !(c == ','))).length :=
        List.length_pos.mpr hk
      cases hd : r2.drop (r2.takeWhile (fun c => !(c == ','))).length with
      | nil => rw [hd] at h; exact absurd h (by simp)
      | cons c2 r3 =>
        rw [hd] at h
        simp only [] at h
        by_cases hc2 : c2 = ','
        swap
        · rw [if_neg hc2] at h
          exact absurd h (by simp)
        rw [if_pos hc2] at h
        simp only [Option.some.injEq, Prod.mk.injEq] at h
        obtain ⟨-, rfl⟩ := h
        have e1 : (r2.drop (r2.takeWhile (fun c => !(c == ','))).length).length
            = r2.length - (r2.takeWhile (fun c => !(c == ','))).length := List.length_drop _ _
        rw [hd] at e1
        have e2 : ((rest.drop (rest.takeWhile isWordChar).length).dropWhile isPyWs).length
            ≤ (rest.drop (rest.takeWhile isWordChar).length).length :=
          dropWhile_length_le _ _
        rw [hws] at e2
        have e3 : (rest.drop (rest.takeWhile isWordChar).length).length
            = rest.length - (rest.takeWhile isWordChar).length := List.length_drop _ _
        simp only [List.length_cons] at e1 e2
        simp only [List.length_cons]
        omega

theorem findHeader_length (l : List Char) : ∀ (ty r : List Char),
    findHeader l = some (ty, r) → r.length + 5 ≤ l.length := by
  induction l with
  | nil => intro ty r h; exact absurd h (by simp [findHeader])
  | cons c rest ih =>
    intro ty r h
    unfold findHeader at h
    cases hth : tryHeader (c :: rest) with
    | some p =>
      rw [hth] at h
      obtain ⟨ty2, r2⟩ := p
      simp only [Option.some.injEq, Prod.mk.injEq] at h
      obtain ⟨h1, h2⟩ := h
      subst h2
      exact tryHeader_length _ _ _ hth
    | none =>
      rw [hth] at h
      have := ih ty r h
      simp only [List.length_cons]
      omega

theorem parseBibAux_length (fuel : Nat) : ∀ (text : List Char),
    (parseBibAux fuel text).length ≤ text.length := by
  induction fuel with
  | zero => intro text; simp [parseBibAux]
  | succ fuel ih =>
    intro text
    unfold parseBibAux
    cases hf : findHeader text with
    | none => simp
    | some p =>
      obtain ⟨ty, afterComma⟩ := p
      have h1 := findHeader_length text ty afterComma hf
      have h2 := braceLoop_snd_length afterComma 1 []
      have h3 := ih (braceLoop afterComma 1 []).2
      simp only [List.length_cons]
      omega

/-- C9: the scanner is total: on every input text, well-formed or not, it
terminates with a list of field mappings (at most one per input
character); on a malformed entry with an unclosed brace it truncates the
field value instead of failing. -/
theorem claim_c9 :
    (∀ text : String, (_parse_bib text).length ≤ text.length) ∧
    _parse_bib "@x\x7bk, t = \x7bunclosed" = [[("_type", "x"), ("t", "unclos")]] := by
  constructor
  · intro text
    have h := parseBibAux_length (text.toList.length + 1) text.toList
    exact h
  · rfl

theorem count_dropWhile_not (l : List Char) (c : Char) (hc : isPyWs c = false) :
    (l.dropWhile isPyWs).count c = l.count c := by
  induction l with
  | nil => rfl
  | cons a l ih =>
    by_cases ha : isPyWs a = true
    · have hac : a ≠ c := by
        intro h
        rw [h, hc] at ha
        exact Bool.false_ne_true ha
      rw [List.dropWhile_cons, if_pos ha, ih, List.count_cons]
      simp [hac, Ne.symm hac]
    · rw [List.dropWhile_cons, if_neg ha]

theorem count_pyStrip (p : List Char) (c : Char) (hc : isPyWs c = false) :
    (pyStrip p).count c = p.count c := by
  unfold pyStrip
  rw [List.count_reverse, count_dropWhile_not _ c hc, List.count_reverse,
      count_dropWhile_not _ c hc]

/-- C6: in the author field, a split piece carrying two or more commas is
dropped entirely from the author list, while a piece with exactly one
comma is reordered from "Last, First" to "First Last" (both halves
trimmed, then LaTeX-cleaned, kept only if non-empty). -/
theorem claim_c6 (raw : List Char) (pre post : List (List Char)) (p : List Char)
    (hsplit : splitAnd raw = pre ++ p :: post) :
    (2 ≤ p.count ',' → _parse_author_list raw = (pre ++ post).filterMap processPiece) ∧
    (∀ l f, pyStrip p = l ++ ',' :: f → ',' ∉ l → ',' ∉ f →
       _parse_author_list raw =
         pre.filterMap processPiece ++
         (if _clean_latex (pyStrip f ++ ' ' :: pyStrip l) = [] then []
          else [_clean_latex (pyStrip f ++ ' ' :: pyStrip l)]) ++
         post.filterMap processPiece) := by
  constructor
  · intro hcount
    have hc : (pyStrip p).count ',' = p.count ',' := count_pyStrip p ',' (by decide)
    have hne : pyStrip p ≠ [] := by
      intro h0
      rw [h0] at hc
      simp only [List.count_nil] at hc
      omega
    have hpp : processPiece p = none := by
      unfold processPiece
      rw [if_neg hne, if_pos (by omega : 2 ≤ (pyStrip p).count ',')]
    unfold _parse_author_list
    rw [hsplit, List.filterMap_append, List.filterMap_cons_none hpp,
        ← List.filterMap_append]
  · intro l f hp hl hf
    have hne : pyStrip p ≠ [] := by rw [hp]; simp
    have hcount1 : (pyStrip p).count ',' = 1 := by
      rw [hp, List.count_append, List.count_cons]
      have h1 : l.count ',' = 0 := List.count_eq_zero.mpr hl
      have h2 : f.count ',' = 0 := List.count_eq_zero.mpr hf
      simp [h1, h2]
    have hmem : ',' ∈ pyStrip p := by rw [hp]; simp
    have hcomma_take : (pyStrip p).takeWhile (fun c => !(c == ',')) = l := by
      rw [hp]
      refine takeWhile_append_stop l f ',' ?_ (by decide)
      intro c hc
      have : c ≠ ',' := fun h => hl (h ▸ hc)
      simp [this]
    have hdrop : (pyStrip p).drop l.length = ',' :: f := by
      rw [hp]
      exact List.drop_left l (',' :: f)
    have hpp : processPiece p =
        (if _clean_latex (pyStrip f ++ ' ' :: pyStrip l) = [] then none
         else some (_clean_latex (pyStrip f ++ ' ' :: pyStrip l))) := by
      unfold processPiece
      rw [if_neg hne, if_neg (by omega : ¬ 2 ≤ (pyStrip p).count ','), if_pos hmem]
      simp only []
      rw [hcomma_take, hdrop]
      simp only [List.drop_succ_cons, List.drop_zero]
    unfold _parse_author_list
    rw [hsplit, List.filterMap_append]
    by_cases hclean : _clean_latex (pyStrip f ++ ' ' :: pyStrip l) = []
    · rw [if_pos hclean] at hpp
      rw [List.filterMap_cons_none hpp, if_pos hclean]
      simp
    · rw [if_neg hclean] at hpp
      rw [List.filterMap_cons_some hpp, if_neg hclean]
      simp

/-- C6 witness: claim_c6 on the author field
"Uni, City, Country and Smith, Jane": the institutional piece with two
commas contributes nothing, and the "Smith, Jane" piece contributes the
reordered "Jane Smith". -/
theorem claim_c6_witness :
    (_parse_author_list "Uni, City, Country and Smith, Jane".toList =
       ([] ++ ["Smith, Jane".toList]).filterMap processPiece) ∧
    (_parse_author_list "Uni, City, Country and Smith, Jane".toList =
       ["Uni, City, Country".toList].filterMap processPiece ++
       (if _clean_latex (pyStrip " Jane".toList ++ ' ' :: pyStrip "Smith".toList) = [] then []
        else [_clean_latex (pyStrip " Jane".toList ++ ' ' :: pyStrip "Smith".toList)]) ++
       ([] : List (List Char)).filterMap processPiece) :=
  ⟨(claim_c6 "Uni, City, Country and Smith, Jane".toList []
      ["Smith, Jane".toList] "Uni, City, Country".toList rfl).1 (by decide),
   (claim_c6 "Uni, City, Country and Smith, Jane".toList ["Uni, City, Country".toList]
      [] "Smith, Jane".toList rfl).2 "Smith".toList " Jane".toList rfl
      (by decide) (by decide)⟩

end BibCV
